import Mathlib

/-!
Verification of the theme-catalog wire-protocol client in
`src/tools/theme_library/get_block_stocks.py` (repository `lyizhou/Quant_OS`).

The Python module is shallowly embedded here:

* bytes are `List Nat` (each element `< 256` in every reachable use);
* Python strings are `List Nat` of Unicode code points;
* fallible code (`raise` / `IndexError`) becomes `Option` / `Except Unit`;
* the `while` loops of `parse_theme_list` and the socket-read loops of
  `receive_packet` become fuel-indexed structural recursions whose fuel is, by
  construction, at least the number of remaining loop iterations (the fuel
  sufficiency of the record-scanner loop is itself one of the verified
  properties).

Model scope notes: `pyIsdigitChar` models Python `str.isdigit` on one code
point; the full Unicode table is enormous, so the model covers ASCII digits
plus representative non-ASCII ranges Python accepts (superscripts, Arabic-Indic,
extended Arabic-Indic, Devanagari, fullwidth digits).  `pyIsSpace` is the
complete whitespace set stripped by Python `str.strip`.  `pyDecodeUtf8Ignore`
models `bytes.decode("utf-8", errors="ignore")`: maximal valid sequences are
decoded, bytes of ill-formed sequences are skipped.
-/

set_option maxHeartbeats 4000000
set_option maxRecDepth 100000

namespace ThemeLib

/-! ## Varint decoder (`parse_varint`, get_block_stocks.py lines 38-58) -/

/-- Loop body of `parse_varint`: `pos` indexes into `data`; `result`/`shift`
are the accumulator state.  `fuel` equals `data.length - pos` at every call,
so the `0` case coincides with the `while pos < len(data)` exit.  `none`
models the `ValueError("Varint too long")` raise. -/
def parse_varint_loop (data : List Nat) : Nat → Nat → Nat → Nat → Option (Nat × Nat)
  | 0, pos, result, _ => some (result, pos)
  | fuel + 1, pos, result, shift =>
    if pos < data.length then
      let byte := data.getD pos 0
      let result1 := result ||| (byte &&& 0x7F) <<< shift
      if byte &&& 0x80 = 0 then some (result1, pos + 1)
      else if shift + 7 ≥ 64 then none
      else parse_varint_loop data fuel (pos + 1) result1 (shift + 7)
    else some (result, pos)

/-- Python `parse_varint(data, start_index)`: returns `(value, consumed)` on
success and `none` on the overflow `ValueError`. -/
def parse_varint (data : List Nat) (start : Nat) : Option (Nat × Nat) :=
  match parse_varint_loop data (data.length - start) start 0 0 with
  | some (r, pos) => some (r, pos - start)
  | none => none

/-- Suffix view of the varint loop used for proofs: consumes the list it is
given, returning `(value, consumed)`. -/
def pvl : List Nat → Nat → Nat → Option (Nat × Nat)
  | [], result, _ => some (result, 0)
  | b :: bs, result, shift =>
    let result1 := result ||| (b &&& 0x7F) <<< shift
    if b &&& 0x80 = 0 then some (result1, 1)
    else if shift + 7 ≥ 64 then none
    else (pvl bs result1 (shift + 7)).map fun p => (p.1, p.2 + 1)

/-- LEB128 varint encoding (from the spec's words: 7 data bits per byte, low
group first, continuation bit `0x80` on every byte except the last). -/
def encode_varint (v : Nat) : List Nat :=
  if h : v < 128 then [v] else (v % 128 + 128) :: encode_varint (v / 128)
  termination_by v
  decreasing_by exact Nat.div_lt_self (by omega) (by omega)

/-! ## Python string primitives -/

/-- Whitespace stripped by Python `str.strip` (characters with `str.isspace`):
ASCII `\t\n\v\f\r`, the separators `0x1C`-`0x1F`, space, NEL, NBSP, Ogham
space mark, the `U+2000`-`U+200A` spaces, line/paragraph separators, narrow
no-break space, medium mathematical space, ideographic space. -/
def pyIsSpace (c : Nat) : Bool :=
  (9 ≤ c && c ≤ 13) || (28 ≤ c && c ≤ 32) || c == 0x85 || c == 0xA0 || c == 0x1680 ||
  (0x2000 ≤ c && c ≤ 0x200A) || c == 0x2028 || c == 0x2029 || c == 0x202F || c == 0x205F ||
  c == 0x3000

/-- Python `str.strip()`: remove leading and trailing whitespace. -/
def pyStrip (s : List Nat) : List Nat :=
  ((s.dropWhile pyIsSpace).reverse.dropWhile pyIsSpace).reverse

/-- Python `str.isdigit` on one code point.  Python accepts every Unicode
character with numeric type Digit or Decimal; the full table is enormous, so
this model covers ASCII digits plus representative non-ASCII ranges Python
accepts (Latin-1 superscripts two/three/one, Arabic-Indic, extended
Arabic-Indic, Devanagari, fullwidth digits).  Crucially, like Python's, the
predicate is strictly wider than the ASCII digits `0x30`-`0x39`. -/
def pyIsdigitChar (c : Nat) : Bool :=
  (0x30 ≤ c && c ≤ 0x39) || c == 0xB2 || c == 0xB3 || c == 0xB9 ||
  (0x660 ≤ c && c ≤ 0x669) || (0x6F0 ≤ c && c ≤ 0x6F9) ||
  (0x966 ≤ c && c ≤ 0x96F) || (0xFF10 ≤ c && c ≤ 0xFF19)

/-- Python `str.isdigit()`: true iff the string is non-empty and every
character is a digit. -/
def pyIsdigitStr (s : List Nat) : Bool := !s.isEmpty && s.all pyIsdigitChar

def utf8Cont (b : Nat) : Bool := 0x80 ≤ b && b ≤ 0xBF

/-- One step per recursion of the UTF-8 decoder with the `ignore` error
handler: a valid 1-4 byte sequence (overlongs, surrogates and values past
`U+10FFFF` excluded by the second-byte ranges) is decoded; on an ill-formed
sequence the bytes of its maximal valid prefix are skipped.  `fuel` is at
least the remaining byte count, and every step consumes at least one byte. -/
def utf8DecodeAux : Nat → List Nat → List Nat
  | 0, _ => []
  | _, [] => []
  | fuel + 1, b0 :: rest =>
    if b0 < 0x80 then b0 :: utf8DecodeAux fuel rest
    else if 0xC2 ≤ b0 && b0 ≤ 0xDF then
      match rest with
      | b1 :: rest1 =>
        if utf8Cont b1 then ((b0 - 0xC0) * 0x40 + (b1 - 0x80)) :: utf8DecodeAux fuel rest1
        else utf8DecodeAux fuel rest
      | [] => []
    else if 0xE0 ≤ b0 && b0 ≤ 0xEF then
      match rest with
      | b1 :: rest1 =>
        if (if b0 = 0xE0 then 0xA0 else 0x80) ≤ b1 && b1 ≤ (if b0 = 0xED then 0x9F else 0xBF)
        then
          match rest1 with
          | b2 :: rest2 =>
            if utf8Cont b2 then
              ((b0 - 0xE0) * 0x1000 + (b1 - 0x80) * 0x40 + (b2 - 0x80)) ::
                utf8DecodeAux fuel rest2
            else utf8DecodeAux fuel rest1
          | [] => []
        else utf8DecodeAux fuel rest
      | [] => []
    else if 0xF0 ≤ b0 && b0 ≤ 0xF4 then
      match rest with
      | b1 :: rest1 =>
        if (if b0 = 0xF0 then 0x90 else 0x80) ≤ b1 && b1 ≤ (if b0 = 0xF4 then 0x8F else 0xBF)
        then
          match rest1 with
          | b2 :: rest2 =>
            if utf8Cont b2 then
              match rest2 with
              | b3 :: rest3 =>
                if utf8Cont b3 then
                  ((b0 - 0xF0) * 0x40000 + (b1 - 0x80) * 0x1000 + (b2 - 0x80) * 0x40 +
                      (b3 - 0x80)) :: utf8DecodeAux fuel rest3
                else utf8DecodeAux fuel rest2
              | [] => []
            else utf8DecodeAux fuel rest1
          | [] => []
        else utf8DecodeAux fuel rest
      | [] => []
    else utf8DecodeAux fuel rest

/-- Python `bytes.decode("utf-8", errors="ignore")`. -/
def pyDecodeUtf8Ignore (bs : List Nat) : List Nat := utf8DecodeAux bs.length bs

/-! ## Record scanner (`parse_theme_list`, get_block_stocks.py lines 61-257) -/

/-- Python `bytes.find(bytes([b]), start)` as an `Option`: the least position
`≥ start` holding byte `b`. -/
def findByte (body : List Nat) (b start : Nat) : Option Nat :=
  match (body.drop start).findIdx? (· == b) with
  | some k => some (start + k)
  | none => none

/-- Python `bytes.find(pat)` (first full occurrence of `pat`). -/
def findSeqFrom (pat : List Nat) : List Nat → Nat → Option Nat
  | [], i => if pat.length = 0 then some i else none
  | l@(_ :: t), i => if l.take pat.length = pat then some i else findSeqFrom pat t (i + 1)

def findSeq (body pat : List Nat) : Option Nat := findSeqFrom pat body 0

/-- One entry of the debug list `all_fields` collected by the trailing-field
scan: a decoded varint `(field_num, value)` or a skipped length-delimited
field `(field_num, length)`. -/
inductive AllField where
  | varintF : Nat → Nat → AllField
  | lenDelimF : Nat → Nat → AllField
deriving DecidableEq

/-- The `theme_data` dict built by `parse_theme_list`.  Absent keys are
`none`; strings are code-point lists. -/
structure ThemeData where
  id : Option (List Nat)
  name : Option (List Nat)
  code : Option (List Nat)
  raw_data : Option (List Nat)
  field5 : Option Nat
  field6 : Option Nat
  field7 : Option Nat
  field8 : Option Nat
  field9 : Option Nat
  field10 : Option Nat
  field11 : Option Nat
  limit_up_count : Option Nat
  allFields : List AllField
deriving DecidableEq

def emptyTheme : ThemeData :=
  ⟨none, none, none, none, none, none, none, none, none, none, none, none, []⟩

/-- `theme_data = {"id": tid}`. -/
def idOnly (tid : List Nat) : ThemeData := { emptyTheme with id := some tid }

/-- Python truthiness of `theme_data.get(key)` for a string value: present
and non-empty. -/
def truthyStr : Option (List Nat) → Bool
  | none => false
  | some s => !s.isEmpty

/-- The `field_num`-indexed assignments of the trailing-field scan
(get_block_stocks.py lines 204-223), including the `limit_up_count`
surfacing rules for fields 7 and 8. -/
def updateField (d : ThemeData) (fnum v : Nat) : ThemeData :=
  if fnum = 5 then { d with field5 := some v }
  else if fnum = 6 then { d with field6 := some v }
  else if fnum = 7 then
    if v ≤ 100 then { d with field7 := some v, limit_up_count := some v }
    else { d with field7 := some v }
  else if fnum = 8 then
    if v ≤ 100 ∧ d.limit_up_count = none then
      { d with field8 := some v, limit_up_count := some v }
    else { d with field8 := some v }
  else if fnum = 9 then { d with field9 := some v }
  else if fnum = 10 then { d with field10 := some v }
  else if fnum = 11 then { d with field11 := some v }
  else d

/-- The trailing-field `while current_pos < theme_end` loop
(get_block_stocks.py lines 183-239).  `fuel` is at least `te - pos`; each
iteration consumes at least one byte, so fuel exhaustion coincides with loop
exit.  All `break`s (wire type ≠ 0/2, varint `ValueError`, overruns) return
the record as accumulated so far. -/
def innerLoop (body : List Nat) (te : Nat) : Nat → Nat → ThemeData → ThemeData
  | 0, _, d => d
  | fuel + 1, pos, d =>
    if pos < te then
      if pos ≥ body.length then d
      else
        let tag := body.getD pos 0
        let fnum := tag >>> 3
        let wt := tag &&& 0x07
        if wt = 0 then
          match parse_varint body (pos + 1) with
          | none => d
          | some (v, consumed) =>
            innerLoop body te fuel (pos + 1 + consumed)
              (updateField { d with allFields := d.allFields ++ [.varintF fnum v] } fnum v)
        else if wt = 2 then
          if pos + 1 ≥ body.length then d
          else
            let len := body.getD (pos + 1) 0
            if pos + 2 + len > body.length then d
            else
              innerLoop body te fuel (pos + 2 + len)
                { d with allFields := d.allFields ++ [.lenDelimF fnum len] }
        else d
    else d

/-- The claimed-length byte following a `0x0A` anchor at `p`. -/
def anchorIdLen (body : List Nat) (p : Nat) : Nat := body.getD (p + 1) 0

/-- The decoded candidate-id payload of the anchor at `p`. -/
def anchorIdRaw (body : List Nat) (p : Nat) : List Nat :=
  pyDecodeUtf8Ignore ((body.drop (p + 2)).take (anchorIdLen body p))

/-- The id-validation conjunction applied to an anchor at `p` whose two
header bytes are in range (payload fits, raw length ≤ 20, decoded payload
non-empty with all-digit strip, stripped length ≤ 10). -/
def anchorAccept (body : List Nat) (p : Nat) : Bool :=
  (p + 2 + anchorIdLen body p ≤ body.length) &&
  (anchorIdLen body p ≤ 20) &&
  (!(anchorIdRaw body p).isEmpty && pyIsdigitStr (pyStrip (anchorIdRaw body p))) &&
  ((pyStrip (anchorIdRaw body p)).length ≤ 10)

/-- The optional `0x22` code field (get_block_stocks.py lines 158-165).
`theme_body[index + 1]` is read unguarded there, so `index2 = len - 1` with
byte `0x22` at `index2` raises `IndexError` (modelled by `.error ()`). -/
def codeStage (body : List Nat) (index2 : Nat) (d : ThemeData) :
    Except Unit (ThemeData × Nat) :=
  if index2 < body.length ∧ body.getD index2 0 = 0x22 then
    if index2 + 1 < body.length then
      let code_len := body.getD (index2 + 1) 0
      if index2 + 2 + code_len ≤ body.length then
        .ok ({ d with code := some (pyDecodeUtf8Ignore ((body.drop (index2 + 2)).take code_len)) },
          index2 + 2 + code_len)
      else .ok (d, index2)
    else .error ()
  else .ok (d, index2)

/-- Locate the next `0x0A` anchor (or window end), store `raw_data`, and run
the trailing-field scan (get_block_stocks.py lines 167-242).  Returns the
finished record and `next_theme_start`. -/
def scanTrailing (body : List Nat) (index3 : Nat) (d : ThemeData) : ThemeData × Nat :=
  let nts := (findByte body 0x0A index3).getD body.length
  let d1 := { d with raw_data := some ((body.drop index3).take (nts - index3)) }
  (innerLoop body nts (nts - index3) index3 d1, nts)

/-- Result of one outer-loop iteration: loop `break` with the final
accumulator, continue at a new index, or an uncaught `IndexError`. -/
inductive StepRes where
  | done : List ThemeData → StepRes
  | cont : Nat → List ThemeData → StepRes
  | fail : StepRes
deriving DecidableEq

/-- End of one record (get_block_stocks.py lines 244-255): append the record
if `id` and `name` are truthy, move to `next_theme_start`, apply the
anti-infinite-loop guard, and stop at the window end. -/
def finishRecord (body : List Nat) (theme_start : Nat) (d : ThemeData) (nts : Nat)
    (acc : List ThemeData) : StepRes :=
  let acc1 := if truthyStr d.id ∧ truthyStr d.name then acc ++ [d] else acc
  let idx := if nts ≤ theme_start then nts + 1 else nts
  if idx ≥ body.length then .done acc1 else .cont idx acc1

/-- The rest of an iteration once `id` and `name` have been read: code
field, trailing-field scan, record completion (get_block_stocks.py lines
157-255). -/
def afterName (body : List Nat) (theme_start index2 : Nat) (d : ThemeData)
    (acc : List ThemeData) : StepRes :=
  match codeStage body index2 d with
  | .error _ => .fail
  | .ok di =>
    finishRecord body theme_start (scanTrailing body di.2 di.1).1
      (scanTrailing body di.2 di.1).2 acc

/-- One full iteration of the outer `while index < len(theme_body)` loop of
`parse_theme_list` (get_block_stocks.py lines 90-255), entered with
`index < body.length`. -/
def step (body : List Nat) (index : Nat) (acc : List ThemeData) : StepRes :=
  match findByte body 0x0A index with
  | none => .done acc
  | some next_id =>
    if next_id + 2 ≥ body.length then .done acc
    else if next_id + 2 + anchorIdLen body next_id > body.length then .cont (next_id + 1) acc
    else if anchorIdLen body next_id > 20 then .cont (next_id + 1) acc
    else if (anchorIdRaw body next_id).isEmpty ∨
        ¬ pyIsdigitStr (pyStrip (anchorIdRaw body next_id)) then .cont (next_id + 1) acc
    else if (pyStrip (anchorIdRaw body next_id)).length > 10 then .cont (next_id + 1) acc
    else
      let tid := pyStrip (anchorIdRaw body next_id)
      let index1 := next_id + 2 + anchorIdLen body next_id
      if index1 + 1 ≥ body.length then
        .done (if tid.isEmpty then acc else acc ++ [idOnly tid])
      else if body.getD index1 0 = 0x12 then
        let name_len := body.getD (index1 + 1) 0
        if index1 + 2 + name_len > body.length then
          .done (if tid.isEmpty then acc else acc ++ [idOnly tid])
        else
          let nm := pyDecodeUtf8Ignore ((body.drop (index1 + 2)).take name_len)
          let index2 := index1 + 2 + name_len
          afterName body index index2 { idOnly tid with name := some nm } acc
      else .cont (next_id + 1) acc

/-- The outer scan loop, fuel-indexed.  `none` is fuel exhaustion; the
verified fuel bound shows it never occurs for fuel `≥ body.length - index`. -/
def scanLoop (body : List Nat) : Nat → Nat → List ThemeData → Option (Except Unit (List ThemeData))
  | 0, index, acc => if index < body.length then none else some (.ok acc)
  | fuel + 1, index, acc =>
    if index < body.length then
      match step body index acc with
      | .done acc1 => some (.ok acc1)
      | .fail => some (.error ())
      | .cont index1 acc1 => scanLoop body fuel index1 acc1
    else some (.ok acc)

/-- Initial scan index: one past the `0B C1 00 00 00` marker if present
(get_block_stocks.py lines 84-86). -/
def startIndex (body : List Nat) : Nat :=
  match findSeq body [0x0B, 0xC1, 0x00, 0x00, 0x00] with
  | some m => m + 5
  | none => 0

/-- Python `parse_theme_list(theme_body)`; `.error ()` is the uncaught
`IndexError` of the code-field read. -/
def parse_theme_list (body : List Nat) : Except Unit (List ThemeData) :=
  (scanLoop body (body.length + 1) (startIndex body) []).getD (.ok [])

/-! ## Packet-level extraction (`_extract_theme_list_from_packet`,
get_block_stocks.py lines 380-450) -/

/-- One caller-facing record of `_extract_theme_list_from_packet`. -/
structure SimpleTheme where
  id : List Nat
  name : List Nat
  code : Option (List Nat)
  limit_up_count : Nat
deriving DecidableEq

/-- The control-character test of the validator (get_block_stocks.py lines
429-434): some character has code point `< 32` and is not tab/newline/CR. -/
def hasInvalidChar (nm : List Nat) : Bool :=
  nm.any fun c => c < 32 && !(c == 9 || c == 10 || c == 13)

/-- The validation/deduplication loop (get_block_stocks.py lines 405-449):
`acc` is `simplified`, `seen` is `seen_ids`. -/
def simplifyFold : List ThemeData → List SimpleTheme → List (List Nat) → List SimpleTheme
  | [], acc, _ => acc
  | t :: rest, acc, seen =>
    match t.id, t.name with
    | some tid0, some nm =>
      if tid0.isEmpty ∨ nm.isEmpty then simplifyFold rest acc seen
      else
        let tid := pyStrip tid0
        if ¬ pyIsdigitStr tid then simplifyFold rest acc seen
        else if tid.length = 0 ∨ tid.length > 10 then simplifyFold rest acc seen
        else if nm.length = 0 ∨ nm.length > 100 then simplifyFold rest acc seen
        else if hasInvalidChar nm then simplifyFold rest acc seen
        else if tid ∈ seen then simplifyFold rest acc seen
        else simplifyFold rest (acc ++ [⟨tid, nm, t.code, t.limit_up_count.getD 0⟩]) (tid :: seen)
    | _, _ => simplifyFold rest acc seen

/-- The 4096-byte windows of the frame body: chunk `i` is
`message_body[4096*i : min(4096*(i+1), len)]`. -/
def chunksOf (body : List Nat) : List (List Nat) :=
  (List.range ((body.length + 4095) / 4096)).map fun i => (body.drop (4096 * i)).take 4096

/-- `themes.extend(parse_theme_list(chunk) or [])` over all chunks; an
`IndexError` in any chunk propagates. -/
def collectParses : List (List Nat) → Except Unit (List ThemeData)
  | [] => .ok []
  | c :: rest =>
    match parse_theme_list c with
    | .error e => .error e
    | .ok l =>
      match collectParses rest with
      | .error e => .error e
      | .ok ls => .ok (l ++ ls)

/-- Python `_extract_theme_list_from_packet(packet)`. -/
def extractThemes (packet : List Nat) : Except Unit (List SimpleTheme) :=
  if packet.isEmpty ∨ packet.length < 3 then .ok []
  else if ¬ (packet.getD 0 0 = 0x40 ∨ packet.getD 0 0 = 0x60) then .ok []
  else if packet.length < 3 + (packet.getD 1 0 * 256 + packet.getD 2 0) then .ok []
  else
    match collectParses (chunksOf (packet.drop 3)) with
    | .error e => .error e
    | .ok themes => .ok (simplifyFold themes [] [])

/-! ## Frame reader (`receive_packet`, get_block_stocks.py lines 516-538) -/

/-- One `sock.recv(n)` on a stream modelled as the list of byte chunks the
transport will deliver: the next chunk is returned (truncated to `n` if
longer); an exhausted stream yields the empty bytes of a closed socket. -/
def recvChunk (n : Nat) (s : List (List Nat)) : List Nat × List (List Nat) :=
  match s with
  | [] => ([], [])
  | c :: rest => if c.length ≤ n then (c, rest) else (c.take n, c.drop n :: rest)

/-- The `while len(buf) < need: chunk = sock.recv(need - len(buf))`
accumulation loop of `receive_packet`; `none` models `return None` on an
empty chunk.  Called with `fuel = need`; every iteration adds at least one
byte, so the fuel-0 `none` branch is unreachable from those calls. -/
def recvExactLoop (need : Nat) : Nat → List Nat → List (List Nat) →
    Option (List Nat × List (List Nat))
  | 0, acc, s => if acc.length < need then none else some (acc, s)
  | fuel + 1, acc, s =>
    if acc.length < need then
      let p := recvChunk (need - acc.length) s
      if p.1.isEmpty then none
      else recvExactLoop need fuel (acc ++ p.1) p.2
    else some (acc, s)

/-- Python `receive_packet(sock)`: reads the 3-byte header, takes bytes 1-2
big-endian as the body length, reads exactly that many body bytes, and
returns `header + body` (with the unread remainder of the stream); `none`
models `return None`. -/
def receive_packet (s : List (List Nat)) : Option (List Nat × List (List Nat)) :=
  match recvExactLoop 3 3 [] s with
  | none => none
  | some hs =>
    let bodyLen := hs.1.getD 1 0 * 256 + hs.1.getD 2 0
    match recvExactLoop bodyLen bodyLen [] hs.2 with
    | none => none
    | some bs => some (hs.1 ++ bs.1, bs.2)

/-! ## Spec-side definitions (used only to state claims, never inside the
embedded code) -/

/-- An ASCII digit, `0x30`-`0x39` (claim C3/C6 vocabulary). -/
def isAsciiDigit (c : Nat) : Bool := 0x30 ≤ c && c ≤ 0x39

/-- An ASCII control character: the C0 range `0x00`-`0x1F` plus DEL
`0x7F` (claim C3 vocabulary). -/
def isAsciiControl (c : Nat) : Bool := c < 32 || c == 127

/-- Specification of one `limit_up_count` update from a decoded varint pair
`(field_num, value)`: a field-7 value `≤ 100` always overwrites; a field-8
value `≤ 100` only fills an unset slot. -/
def lucStep (acc : Option Nat) (p : Nat × Nat) : Option Nat :=
  if p.1 = 7 ∧ p.2 ≤ 100 then some p.2
  else if p.1 = 8 ∧ p.2 ≤ 100 ∧ acc = none then some p.2
  else acc

/-- The varint `(field_num, value)` pairs of a debug-field list, in
encounter order. -/
def varintPairs : List AllField → List (Nat × Nat) :=
  List.filterMap fun f => match f with
    | .varintF n v => some (n, v)
    | .lenDelimF _ _ => none

/-- The `limit_up_count` a record's own encounter-ordered varint field list
dictates: fold `lucStep` over the `(field_num, value)` pairs. -/
def lucFromFields (d : ThemeData) : Option Nat :=
  (varintPairs d.allFields).foldl lucStep none

/-- The record accumulator carried by a step result (`.fail` carries
none). -/
def stepAcc : StepRes → List ThemeData
  | .done a => a
  | .cont _ a => a
  | .fail => []

/-! ## Concrete inputs used by witnesses and counterexamples -/

/-- A stream delivering a complete header declaring a 5-byte body, then one
body byte, then closing. -/
def midCloseStream : List (List Nat) := [[0x40, 0x00, 0x05], [0x48]]

/-- A stream delivering a 2-byte-body frame split across two reads. -/
def okStream : List (List Nat) := [[0x40, 0x00, 0x02], [0x41, 0x42]]

/-- Window holding one record `id="5"`, `name="A"` whose trailing fields are
field 8 = 5 then field 7 = 3 (both `≤ 100`, field 8 first). -/
def c2Body : List Nat := [0x0A, 1, 0x35, 0x12, 1, 0x41, 0x40, 5, 0x38, 3]

/-- Packet holding one record `id="5"`, `name="A"` and no trailing varint
fields at all. -/
def c2Pkt : List Nat := [0x40, 0, 6, 0x0A, 1, 0x35, 0x12, 1, 0x41]

/-- Packet holding one record whose name is `"A"` followed by DEL
(`U+007F`). -/
def c3DelPkt : List Nat := [0x40, 0, 7, 0x0A, 1, 0x35, 0x12, 2, 0x41, 0x7F]

/-- Packet holding one record whose id payload is the UTF-8 of `"²"`
(SUPERSCRIPT TWO, a Python digit that is not an ASCII digit). -/
def c3SupPkt : List Nat := [0x40, 0, 7, 0x0A, 2, 0xC2, 0xB2, 0x12, 1, 0x41]

/-- Window with record `id="5"`,`name="A"`, then a field-5 varint of ten
continuation bytes (overflow), then record `id="6"`,`name="B"`. -/
def c4Body : List Nat :=
  [0x0A, 1, 0x35, 0x12, 1, 0x41, 0x28] ++ List.replicate 10 0x80 ++
    [0x0A, 1, 0x36, 0x12, 1, 0x42]

/-- The ten-continuation-byte tail of `c4Body` viewed on its own. -/
def c4Varint : List Nat := 0x28 :: List.replicate 10 0x80

/-- Window whose anchor payload is `" 12"` (leading space): not all ASCII
digits, yet it strips to the digit string `"12"`. -/
def c6Body : List Nat := [0x0A, 3, 0x20, 0x31, 0x32, 0x12, 1, 0x41]

/-- Window whose anchor payload is `"12a"`. -/
def c6NonDigit : List Nat := [0x0A, 3, 0x31, 0x32, 0x61]

/-- Window whose anchor payload is the 11-digit `"12345678901"`. -/
def c6Eleven : List Nat :=
  [0x0A, 0x0B, 0x31, 0x32, 0x33, 0x34, 0x35, 0x36, 0x37, 0x38, 0x39, 0x30, 0x31]

/-- Frame body whose byte 4095 (the last byte of the first 4096-byte window)
is the `0x0A` anchor and whose id/name payload is entirely in the second
window. -/
def c7Body : List Nat := List.replicate 4095 0 ++ [0x0A, 3, 0x31, 0x32, 0x33, 0x12, 1, 0x41]

/-- The first 4096-byte window of `c7Body`: 4095 zero bytes then the
anchor. -/
def c7Win1 : List Nat := List.replicate 4095 0 ++ [0x0A]

/-- The second window of `c7Body`: the record's payload without its anchor
byte. -/
def c7Win2 : List Nat := [3, 0x31, 0x32, 0x33, 0x12, 1, 0x41]

/-- `c7Body` wrapped in a type-`0x40` frame of declared length 4103. -/
def c7Pkt : List Nat := [0x40, 0x10, 0x07] ++ c7Body

/-- Packet with two valid records sharing `id="500"` with names `"A"` and
`"B"`. -/
def c9Pkt : List Nat :=
  [0x40, 0, 16, 0x0A, 3, 0x35, 0x30, 0x30, 0x12, 1, 0x41,
    0x0A, 3, 0x35, 0x30, 0x30, 0x12, 1, 0x42]

/- END OF DEFINITIONS -/

end ThemeLib

namespace ThemeLib

theorem pvl_nil (r s : Nat) : pvl [] r s = some (r, 0) := rfl

/-- The index-based loop agrees with the suffix view. -/
theorem parse_varint_loop_eq_pvl :
    ∀ (suf pre : List Nat) (r s : Nat),
      parse_varint_loop (pre ++ suf) suf.length pre.length r s =
        (pvl suf r s).map fun p => (p.1, pre.length + p.2) := by
  intro suf
  induction suf with
  | nil =>
    intro pre r s
    simp [parse_varint_loop, pvl]
  | cons b bs ih =>
    intro pre r s
    have hlen : pre.length < (pre ++ b :: bs).length := by
      simp
    have hget : (pre ++ b :: bs).getD pre.length 0 = b := by
      rw [List.getD_append_right pre (b :: bs) 0 pre.length (Nat.le_refl _)]
      simp
    simp only [List.length_cons, parse_varint_loop, hlen, if_pos, hget]
    by_cases hc : b &&& 0x80 = 0
    · simp [pvl, hc]
    · by_cases hs : s + 7 ≥ 64
      · simp [pvl, hc, hs]
      · have hrw : pre ++ b :: bs = (pre ++ [b]) ++ bs := by simp
        have hpos : pre.length + 1 = (pre ++ [b]).length := by simp
        rw [if_neg hc, if_neg hs, hrw, hpos, ih (pre ++ [b])]
        simp only [pvl, if_neg hc, if_neg hs]
        cases pvl bs (r ||| (b &&& 0x7F) <<< s) (s + 7) with
        | none => simp
        | some p => simp; omega

/-- `parse_varint` is the suffix view run on `data.drop start`. -/
theorem parse_varint_eq_pvl (data : List Nat) (start : Nat) :
    parse_varint data start = pvl (data.drop start) 0 0 := by
  rcases le_or_lt start data.length with h | h
  · obtain ⟨pre, suf, rfl, hplen⟩ : ∃ pre suf, data = pre ++ suf ∧ pre.length = start :=
      ⟨data.take start, data.drop start, (List.take_append_drop _ _).symm, by
        simp [Nat.min_eq_left h]⟩
    subst hplen
    have hdrop : (pre ++ suf).drop pre.length = suf := List.drop_left pre suf
    have hfuel : (pre ++ suf).length - pre.length = suf.length := by simp
    unfold parse_varint
    rw [hdrop, hfuel, parse_varint_loop_eq_pvl suf pre 0 0]
    cases pvl suf 0 0 with
    | none => simp
    | some p => simp
  · have hdrop : data.drop start = [] := List.drop_eq_nil_of_le (Nat.le_of_lt h)
    have hfuel : data.length - start = 0 := by omega
    unfold parse_varint
    rw [hfuel, hdrop]
    simp [parse_varint_loop, pvl]

/-- Merging a low 7-bit group at shift `s` with the rest at shift `s + 7`
rebuilds the value at shift `s`. -/
theorem lor_split (r v s : Nat) :
    r ||| (v % 128) <<< s ||| (v / 128) <<< (s + 7) = r ||| v <<< s := by
  apply Nat.eq_of_testBit_eq
  intro j
  have hmod : v % 128 = v % 2 ^ 7 := by norm_num
  have hdiv : v / 128 = v >>> 7 := by
    rw [Nat.shiftRight_eq_div_pow]
  simp only [Nat.testBit_lor, Nat.testBit_shiftLeft]
  rcases lt_or_ge j s with hj | hj
  · have h1 : decide (j ≥ s) = false := by
      simp only [decide_eq_false_iff_not]; omega
    have h2 : decide (j ≥ s + 7) = false := by
      simp only [decide_eq_false_iff_not]; omega
    rw [h1, h2]
    simp
  · have h1 : decide (j ≥ s) = true := by
      simp only [decide_eq_true_eq]; omega
    rcases lt_or_ge (j - s) 7 with hlt | hge
    · have h2 : decide (j ≥ s + 7) = false := by
        simp only [decide_eq_false_iff_not]; omega
      rw [h1, h2]
      simp only [Bool.true_and, Bool.false_and, Bool.or_false]
      congr 1
      rw [hmod, Nat.testBit_mod_two_pow]
      simp [hlt]
    · have h2 : decide (j ≥ s + 7) = true := by
        simp only [decide_eq_true_eq]; omega
      rw [h1, h2]
      simp only [Bool.true_and]
      have hfalse : (v % 128).testBit (j - s) = false := by
        rw [hmod, Nat.testBit_mod_two_pow]
        simp only [decide_eq_true_eq, Bool.and_eq_false_imp, decide_eq_false_iff_not]
        omega
      rw [hfalse, hdiv, Nat.testBit_shiftRight,
        show 7 + (j - (s + 7)) = j - s by omega]
      simp [Bool.or_assoc]

theorem low_byte_no_cont {b : Nat} (h : b < 128) : b &&& 0x80 = 0 := by
  have hb : b < 2 ^ 7 := by
    have h128 : (2 : Nat) ^ 7 = 128 := by norm_num
    omega
  have h2 : b &&& 2 ^ 7 = (b.testBit 7).toNat * 2 ^ 7 := Nat.and_two_pow b 7
  rw [Nat.testBit_lt_two_pow hb] at h2
  simpa using h2

theorem cont_byte_has_cont (v : Nat) : (v % 128 + 128) &&& 0x80 ≠ 0 := by
  have htb : (v % 128 + 128).testBit 7 = true := by
    rw [Nat.testBit_to_div_mod]
    have hdiv : (v % 128 + 128) / 2 ^ 7 = 1 := by
      have h128 : (2 : Nat) ^ 7 = 128 := by norm_num
      omega
    simp [hdiv]
  have h2 : (v % 128 + 128) &&& 2 ^ 7 = ((v % 128 + 128).testBit 7).toNat * 2 ^ 7 :=
    Nat.and_two_pow _ 7
  rw [htb] at h2
  have h3 : (v % 128 + 128) &&& 0x80 = 128 := by simpa using h2
  omega

theorem low_byte_mask {b : Nat} (h : b < 128) : b &&& 0x7F = b := by
  have hb : b < 2 ^ 7 := by
    have h128 : (2 : Nat) ^ 7 = 128 := by norm_num
    omega
  have h2 := Nat.and_pow_two_sub_one_of_lt_two_pow hb
  simpa using h2

theorem cont_byte_mask (v : Nat) : (v % 128 + 128) &&& 0x7F = v % 128 := by
  have h2 := Nat.and_pow_two_sub_one_eq_mod (v % 128 + 128) 7
  have h128 : (2 : Nat) ^ 7 = 128 := by norm_num
  rw [h128] at h2
  norm_num at h2
  omega

theorem pvl_cons_last {b : Nat} (bs : List Nat) (r s : Nat) (hc : b &&& 0x80 = 0) :
    pvl (b :: bs) r s = some (r ||| (b &&& 0x7F) <<< s, 1) := by
  simp [pvl, hc]

theorem pvl_cons_cont {b : Nat} (bs : List Nat) (r s : Nat) (hc : b &&& 0x80 ≠ 0)
    (hs : ¬ s + 7 ≥ 64) :
    pvl (b :: bs) r s = (pvl bs (r ||| (b &&& 0x7F) <<< s) (s + 7)).map
      fun p => (p.1, p.2 + 1) := by
  simp [pvl, hc, hs]

/-- Decoding the LEB128 encoding of `v` (with any trailing bytes) at
accumulator state `(r, s)` succeeds, merges `v <<< s` into the accumulator,
and consumes exactly the encoded bytes, provided `v` fits below bit `63 - s`. -/
theorem pvl_encode (v : Nat) : ∀ (r s : Nat) (rest : List Nat), v < 2 ^ (63 - s) →
    pvl (encode_varint v ++ rest) r s =
      some (r ||| v <<< s, (encode_varint v).length) := by
  induction v using Nat.strong_induction_on with
  | _ v ih =>
    intro r s rest hv
    by_cases h : v < 128
    · have henc : encode_varint v = [v] := by
        rw [encode_varint]; simp [h]
      rw [henc]
      simp only [List.cons_append, List.nil_append, List.length_cons, List.length_nil]
      rw [pvl_cons_last rest r s (low_byte_no_cont h), low_byte_mask h]
    · have hge : 128 ≤ v := Nat.le_of_not_lt h
      have henc : encode_varint v = (v % 128 + 128) :: encode_varint (v / 128) := by
        rw [encode_varint]; simp [h]
      have h128 : (2 : Nat) ^ 7 = 128 := by norm_num
      have h7 : 7 < 63 - s := by
        by_contra hc
        have hle : (2 : Nat) ^ (63 - s) ≤ 2 ^ 7 :=
          Nat.pow_le_pow_right (by norm_num) (by omega)
        omega
      have hs : ¬ s + 7 ≥ 64 := by omega
      have hdiv_lt : v / 128 < v := Nat.div_lt_self (by omega) (by norm_num)
      have hdiv_bound : v / 128 < 2 ^ (63 - (s + 7)) := by
        have h2 : (2 : Nat) ^ (63 - s) = 2 ^ (63 - (s + 7)) * 128 := by
          rw [show (128 : Nat) = 2 ^ 7 by norm_num, ← pow_add]
          congr 1
          omega
        rw [Nat.div_lt_iff_lt_mul (by norm_num : (0 : Nat) < 128)]
        omega
      rw [henc, List.cons_append,
        pvl_cons_cont (encode_varint (v / 128) ++ rest) r s (cont_byte_has_cont v) hs,
        cont_byte_mask,
        ih (v / 128) hdiv_lt (r ||| (v % 128) <<< s) (s + 7) rest hdiv_bound]
      simp only [Option.map_some']
      rw [lor_split]
      simp

/-- Failure characterization of the varint suffix loop at shift `7 * k`:
the `ValueError` fires exactly when the next `10 - k` bytes all carry the
continuation bit. -/
theorem pvl_none_iff : ∀ (suf : List Nat) (r k : Nat), k ≤ 9 →
    (pvl suf r (7 * k) = none ↔
      10 - k ≤ suf.length ∧ ∀ b ∈ suf.take (10 - k), b &&& 0x80 ≠ 0) := by
  intro suf
  induction suf with
  | nil =>
    intro r k hk
    simp only [pvl_nil, List.length_nil]
    constructor
    · intro hcontr
      simp at hcontr
    · rintro ⟨hle, -⟩
      exact absurd hle (by omega)
  | cons b bs ih =>
    intro r k hk
    have htake : (b :: bs).take (10 - k) = b :: bs.take (9 - k) := by
      rw [show 10 - k = (9 - k) + 1 by omega, List.take_succ_cons]
    rw [htake]
    by_cases hc : b &&& 0x80 = 0
    · rw [pvl_cons_last bs r (7 * k) hc]
      constructor
      · intro hcontr
        simp at hcontr
      · rintro ⟨-, hall⟩
        exact absurd hc (hall b (List.mem_cons_self b _))
    · by_cases hk9 : k = 9
      · subst hk9
        have hs : 7 * 9 + 7 ≥ 64 := by norm_num
        simp only [pvl, if_neg hc, if_pos hs]
        constructor
        · intro _
          refine ⟨by simp only [List.length_cons]; omega, ?_⟩
          intro x hx
          rw [show (9 : Nat) - 9 = 0 from rfl, List.take_zero] at hx
          have hxb : x = b := by simpa using hx
          rw [hxb]
          exact hc
        · intro _
          trivial
      · have hs2 : ¬ 7 * k + 7 ≥ 64 := by omega
        have hstep : 7 * k + 7 = 7 * (k + 1) := by ring
        rw [pvl_cons_cont bs r (7 * k) hc hs2, Option.map_eq_none', hstep,
          ih (r ||| (b &&& 0x7F) <<< (7 * k)) (k + 1) (by omega)]
        constructor
        · rintro ⟨hlen, hall⟩
          refine ⟨by simp only [List.length_cons]; omega, ?_⟩
          intro x hx
          rcases List.mem_cons.mp hx with rfl | hx2
          · exact hc
          · refine hall x ?_
            rw [show 10 - (k + 1) = 9 - k by omega]
            exact hx2
        · rintro ⟨hlen, hall⟩
          refine ⟨by simp only [List.length_cons] at hlen; omega, ?_⟩
          intro x hx
          refine hall x ?_
          rw [show 10 - (k + 1) = 9 - k by omega] at hx
          exact List.mem_cons_of_mem b hx

theorem recvChunk_len_le (n : Nat) (s : List (List Nat)) : (recvChunk n s).1.length ≤ n := by
  cases s with
  | nil => simp [recvChunk]
  | cons c rest =>
    simp only [recvChunk]
    by_cases hc : c.length ≤ n
    · rw [if_pos hc]
      exact hc
    · rw [if_neg hc]
      simp only [List.length_take]
      omega

theorem recvExactLoop_some_len (need : Nat) :
    ∀ (fuel : Nat) (acc : List Nat) (s : List (List Nat)) (out : List Nat × List (List Nat)),
      acc.length ≤ need → recvExactLoop need fuel acc s = some out →
      out.1.length = need := by
  intro fuel
  induction fuel with
  | zero =>
    intro acc s out hle h
    simp only [recvExactLoop] at h
    by_cases h1 : acc.length < need
    · rw [if_pos h1] at h
      cases h
    · rw [if_neg h1] at h
      injection h with h
      subst h
      show acc.length = need
      omega
  | succ fuel ih =>
    intro acc s out hle h
    simp only [recvExactLoop] at h
    by_cases h1 : acc.length < need
    · rw [if_pos h1] at h
      by_cases h2 : (recvChunk (need - acc.length) s).1.isEmpty
      · rw [if_pos h2] at h
        cases h
      · rw [if_neg h2] at h
        refine ih _ _ out ?_ h
        simp only [List.length_append]
        have hchunk := recvChunk_len_le (need - acc.length) s
        omega
    · rw [if_neg h1] at h
      injection h with h
      subst h
      show acc.length = need
      omega

/-- C1, amended part (a): every packet `receive_packet` returns has exactly
the declared body length after the 3-byte header. -/
theorem receive_packet_exact :
    ∀ (s : List (List Nat)) (ps : List Nat × List (List Nat)),
      receive_packet s = some ps →
      ps.1.length = 3 + (ps.1.getD 1 0 * 256 + ps.1.getD 2 0) := by
  intro s ps h
  simp only [receive_packet] at h
  split at h
  · cases h
  · rename_i hs h3
    split at h
    · cases h
    · rename_i bs hb
      injection h with h
      subst h
      have hhl : hs.1.length = 3 := recvExactLoop_some_len 3 3 [] s hs (by simp) h3
      have hbl :
          bs.1.length = hs.1.getD 1 0 * 256 + hs.1.getD 2 0 :=
        recvExactLoop_some_len _ _ [] hs.2 bs (by simp) hb
      have hg1 : (hs.1 ++ bs.1).getD 1 0 = hs.1.getD 1 0 :=
        List.getD_append hs.1 bs.1 0 1 (by omega)
      have hg2 : (hs.1 ++ bs.1).getD 2 0 = hs.1.getD 2 0 :=
        List.getD_append hs.1 bs.1 0 2 (by omega)
      show (hs.1 ++ bs.1).length = 3 + ((hs.1 ++ bs.1).getD 1 0 * 256 + (hs.1 ++ bs.1).getD 2 0)
      simp only [List.length_append, hg1, hg2]
      omega

/-- C1 (amended): `receive_packet` never returns a frame whose body is
shorter than declared — any packet it returns has length exactly 3 plus the
big-endian length in header bytes 1-2.  However, a stream closure in
mid-body is reported as `None` (here `none`), the same ordinary
end-of-stream result used for closure before the header: it is not a
distinct propagated error. -/
theorem c1_receive_packet_amended :
    (∀ (s : List (List Nat)) (ps : List Nat × List (List Nat)),
      receive_packet s = some ps →
      ps.1.length = 3 + (ps.1.getD 1 0 * 256 + ps.1.getD 2 0)) ∧
    receive_packet midCloseStream = none :=
  ⟨receive_packet_exact, rfl⟩

/-- C1 counterexample: a stream delivering a full header that declares a
5-byte body, one body byte, and then closing makes `receive_packet` return
`none` — exactly the ordinary end-of-stream result it returns for an
already-closed stream — refuting the claim that a mid-body closure is never
reported as an ordinary end-of-stream result. -/
theorem c1_receive_packet_counterexample :
    receive_packet midCloseStream = none ∧ receive_packet [] = none :=
  ⟨rfl, rfl⟩

/-- C1 witness: a frame with declared length 2 delivered over two reads
comes back with length `3 + 2`. -/
theorem c1_receive_packet_witness :
    ([0x40, 0x00, 0x02, 0x41, 0x42] : List Nat).length =
      3 + (([0x40, 0x00, 0x02, 0x41, 0x42] : List Nat).getD 1 0 * 256 +
        ([0x40, 0x00, 0x02, 0x41, 0x42] : List Nat).getD 2 0) :=
  c1_receive_packet_amended.1 okStream ([0x40, 0x00, 0x02, 0x41, 0x42], []) rfl

/-- C5: decoding the LEB128 encoding of any `v < 2 ^ 63` (with arbitrary
trailing bytes) returns `v` and consumes exactly the encoded bytes, and the
reference vector `AC 02` decodes to `300` consuming 2 bytes. -/
theorem c5_varint_roundtrip :
    (∀ (v : Nat) (rest : List Nat), v < 2 ^ 63 →
      parse_varint (encode_varint v ++ rest) 0 = some (v, (encode_varint v).length)) ∧
    parse_varint [0xAC, 0x02] 0 = some (300, 2) := by
  constructor
  · intro v rest hv
    rw [parse_varint_eq_pvl, List.drop_zero,
      pvl_encode v 0 0 rest (by simpa using hv)]
    simp
  · rfl

/-- C5 witness: the round-trip theorem applied at `v = 300`. -/
theorem c5_varint_roundtrip_witness :
    300 < 2 ^ 63 ∧
      parse_varint (encode_varint 300 ++ []) 0 = some (300, (encode_varint 300).length) :=
  ⟨by norm_num, c5_varint_roundtrip.1 300 [] (by norm_num)⟩

/-- C10: `parse_varint` fails (the `ValueError`) exactly when the ten bytes
from `start` onward all carry the continuation bit (so the shift reaches 64
with the continuation bit still set); input that merely ends with the
continuation bit set is not an error — the truncated `[0xAC]` returns the
same `(44, 1)` as the complete `[0x2C]`. -/
theorem c10_truncation_tolerated :
    (∀ (data : List Nat) (start : Nat),
      (parse_varint data start = none ↔
        10 ≤ (data.drop start).length ∧
          ∀ b ∈ (data.drop start).take 10, b &&& 0x80 ≠ 0)) ∧
    parse_varint [0xAC] 0 = some (44, 1) ∧ parse_varint [0x2C] 0 = some (44, 1) := by
  refine ⟨?_, rfl, rfl⟩
  intro data start
  rw [parse_varint_eq_pvl]
  have h := pvl_none_iff (data.drop start) 0 0 (by norm_num)
  simpa using h

/-- C10 witness: ten continuation bytes trigger the overflow error. -/
theorem c10_truncation_tolerated_witness :
    parse_varint (List.replicate 10 0x80) 0 = none :=
  (c10_truncation_tolerated.1 (List.replicate 10 0x80) 0).mpr (by decide)

theorem findByte_ge {body : List Nat} {b i p : Nat} (h : findByte body b i = some p) :
    i ≤ p := by
  simp only [findByte] at h
  split at h
  · rename_i k hk
    injection h with h
    omega
  · cases h

theorem finishRecord_cont {body : List Nat} {ts : Nat} {d : ThemeData} {nts : Nat}
    {acc acc1 : List ThemeData} {i' : Nat}
    (h : finishRecord body ts d nts acc = .cont i' acc1) : nts ≤ i' := by
  simp only [finishRecord] at h
  split_ifs at h <;> (try cases h) <;> omega

theorem codeStage_le {body : List Nat} {i2 : Nat} {d : ThemeData} {di : ThemeData × Nat}
    (hi : i2 ≤ body.length) (h : codeStage body i2 d = .ok di) :
    i2 ≤ di.2 ∧ di.2 ≤ body.length := by
  simp only [codeStage] at h
  split_ifs at h with h1 h2 h3 <;> cases h <;> refine ⟨?_, ?_⟩ <;> dsimp only <;> omega

theorem scanTrailing_nts_ge {body : List Nat} {i3 : Nat} (d : ThemeData)
    (hi : i3 ≤ body.length) : i3 ≤ (scanTrailing body i3 d).2 := by
  simp only [scanTrailing]
  cases hf : findByte body 0x0A i3 with
  | none => simpa using hi
  | some q => simpa using findByte_ge hf

/-- A `continue` produced by the post-name stage lands at or past
`index2`. -/
theorem afterName_cont_ge {body : List Nat} {ts i2 : Nat} {d : ThemeData}
    {acc acc' : List ThemeData} {i' : Nat}
    (h : afterName body ts i2 d acc = .cont i' acc') (hi2 : i2 ≤ body.length) :
    i2 ≤ i' := by
  unfold afterName at h
  split at h
  · cases h
  · rename_i di hcs
    have hcl := codeStage_le hi2 hcs
    have hnts := scanTrailing_nts_ge di.1 hcl.2
    have hfr := finishRecord_cont h
    omega

/-- Every `continue` path of the outer scan loop strictly advances the scan
position (the rejection paths advance exactly one byte past the anchor; the
record-completion path advances past the id and name fields). -/
theorem step_cont_gt {body : List Nat} {i i' : Nat} {acc acc' : List ThemeData}
    (h : step body i acc = .cont i' acc') : i < i' := by
  simp only [step] at h
  split at h
  · cases h
  · rename_i next_id hf
    have hnp : i ≤ next_id := findByte_ge hf
    split_ifs at h with h1 h2 h3 h4 h5 h6 h7 h8
    all_goals try (first | (cases h; omega) | cases h)
    · -- the completed-record path
      have hi2 : next_id + 2 + anchorIdLen body next_id + 2 +
          body.getD (next_id + 2 + anchorIdLen body next_id + 1) 0 ≤ body.length := by
        omega
      have hge := afterName_cont_ge h hi2
      omega

theorem scanLoop_fuel (body : List Nat) :
    ∀ (fuel i : Nat) (acc : List ThemeData),
      body.length ≤ i + fuel → scanLoop body fuel i acc ≠ none := by
  intro fuel
  induction fuel with
  | zero =>
    intro i acc hle
    simp only [scanLoop]
    rw [if_neg (by omega : ¬ i < body.length)]
    simp
  | succ fuel ih =>
    intro i acc hle
    simp only [scanLoop]
    by_cases hi : i < body.length
    · rw [if_pos hi]
      cases hs : step body i acc with
      | done acc1 => simp
      | fail => simp
      | cont i1 acc1 =>
        have hgt := step_cont_gt hs
        exact ih i1 acc1 (by omega)
    · rw [if_neg hi]
      simp

/-- The scan loop run with the fuel `parse_theme_list` supplies always
completes, so `parse_theme_list` is exactly its result. -/
theorem parse_theme_list_run (body : List Nat) :
    scanLoop body (body.length + 1) (startIndex body) [] = some (parse_theme_list body) := by
  cases hs : scanLoop body (body.length + 1) (startIndex body) [] with
  | none =>
    exact absurd hs (scanLoop_fuel body (body.length + 1) (startIndex body) [] (by omega))
  | some r =>
    unfold parse_theme_list
    rw [hs]
    rfl

/-- C8: the record scanner's outer loop terminates on every finite window:
each iteration strictly increases the scan position, so fuel of one
iteration per remaining byte (`body.length ≤ i + fuel`) is never
exhausted. -/
theorem c8_scanner_terminates :
    ∀ (body : List Nat) (fuel i : Nat) (acc : List ThemeData),
      body.length ≤ i + fuel → scanLoop body fuel i acc ≠ none :=
  fun body => scanLoop_fuel body

/-- C8 witness: a one-byte window scanned with one unit of fuel. -/
theorem c8_scanner_terminates_witness :
    scanLoop [0x0A] 1 0 [] ≠ none :=
  c8_scanner_terminates [0x0A] 1 0 [] (by norm_num)

theorem varintPairs_nil : varintPairs [] = [] := rfl

theorem varintPairs_cons_v (n v : Nat) (l : List AllField) :
    varintPairs (.varintF n v :: l) = (n, v) :: varintPairs l := rfl

theorem varintPairs_cons_l (n L : Nat) (l : List AllField) :
    varintPairs (.lenDelimF n L :: l) = varintPairs l := rfl

theorem updateField_allFields (d : ThemeData) (n v : Nat) :
    (updateField d n v).allFields = d.allFields := by
  unfold updateField
  split_ifs <;> rfl

theorem updateField_luc (d : ThemeData) (n v : Nat) :
    (updateField d n v).limit_up_count = lucStep d.limit_up_count (n, v) := by
  unfold updateField lucStep
  split_ifs <;> simp_all

theorem codeStage_preserves {body : List Nat} {i2 : Nat} {d : ThemeData}
    {di : ThemeData × Nat} (h : codeStage body i2 d = .ok di) :
    di.1.allFields = d.allFields ∧ di.1.limit_up_count = d.limit_up_count := by
  simp only [codeStage] at h
  split_ifs at h <;> cases h <;> exact ⟨rfl, rfl⟩

/-- The trailing-field loop only ever appends to `allFields`, and its final
`limit_up_count` is the `lucStep` fold of the appended varint pairs over the
starting value. -/
theorem innerLoop_luc (body : List Nat) (te : Nat) :
    ∀ (fuel pos : Nat) (d : ThemeData),
      ∃ tail, (innerLoop body te fuel pos d).allFields = d.allFields ++ tail ∧
        (innerLoop body te fuel pos d).limit_up_count =
          (varintPairs tail).foldl lucStep d.limit_up_count := by
  intro fuel
  induction fuel with
  | zero =>
    intro pos d
    exact ⟨[], by simp [innerLoop], by simp [innerLoop, varintPairs_nil]⟩
  | succ fuel ih =>
    intro pos d
    simp only [innerLoop]
    by_cases h1 : pos < te
    · rw [if_pos h1]
      by_cases h2 : pos ≥ body.length
      · rw [if_pos h2]
        exact ⟨[], by simp, by simp [varintPairs_nil]⟩
      · rw [if_neg h2]
        by_cases h3 : (body.getD pos 0) &&& 0x07 = 0
        · rw [if_pos h3]
          cases hv : parse_varint body (pos + 1) with
          | none =>
            exact ⟨[], by simp, by simp [varintPairs_nil]⟩
          | some vc =>
            obtain ⟨v, c⟩ := vc
            obtain ⟨tail, ha, hl⟩ := ih (pos + 1 + c)
              (updateField
                { d with allFields :=
                    d.allFields ++ [.varintF ((body.getD pos 0) >>> 3) v] }
                ((body.getD pos 0) >>> 3) v)
            refine ⟨.varintF ((body.getD pos 0) >>> 3) v :: tail, ?_, ?_⟩
            · show (innerLoop body te fuel (pos + 1 + c) _).allFields = _
              rw [ha, updateField_allFields]
              simp
            · show (innerLoop body te fuel (pos + 1 + c) _).limit_up_count = _
              rw [hl, updateField_luc]
              rw [varintPairs_cons_v, List.foldl_cons]
        · rw [if_neg h3]
          by_cases h4 : (body.getD pos 0) &&& 0x07 = 2
          · rw [if_pos h4]
            by_cases h5 : pos + 1 ≥ body.length
            · rw [if_pos h5]
              exact ⟨[], by simp, by simp [varintPairs_nil]⟩
            · rw [if_neg h5]
              by_cases h6 : pos + 2 + body.getD (pos + 1) 0 > body.length
              · rw [if_pos h6]
                exact ⟨[], by simp, by simp [varintPairs_nil]⟩
              · rw [if_neg h6]
                obtain ⟨tail, ha, hl⟩ := ih (pos + 2 + body.getD (pos + 1) 0)
                  { d with allFields :=
                      d.allFields ++ [.lenDelimF ((body.getD pos 0) >>> 3) (body.getD (pos + 1) 0)] }
                refine ⟨.lenDelimF ((body.getD pos 0) >>> 3) (body.getD (pos + 1) 0) :: tail,
                  ?_, ?_⟩
                · rw [ha]
                  simp
                · rw [hl, varintPairs_cons_l]
          · rw [if_neg h4]
            exact ⟨[], by simp, by simp [varintPairs_nil]⟩
    · rw [if_neg h1]
      exact ⟨[], by simp, by simp [varintPairs_nil]⟩

/-- A record entering the trailing-field loop with no fields yet satisfies
the `limit_up_count` characterization on exit. -/
theorem innerLoop_P2 {body : List Nat} {te fuel pos : Nat} {d : ThemeData}
    (ha0 : d.allFields = []) (hl0 : d.limit_up_count = none) :
    (innerLoop body te fuel pos d).limit_up_count =
      lucFromFields (innerLoop body te fuel pos d) := by
  obtain ⟨tail, ha, hl⟩ := innerLoop_luc body te fuel pos d
  rw [hl, hl0]
  unfold lucFromFields
  rw [ha, ha0]
  simp

/-- Every record the post-name stage adds to the accumulator satisfies the
`limit_up_count` characterization, provided the record enters it with no
trailing fields yet. -/
theorem afterName_P2 {body : List Nat} {ts i2 : Nat} {d0 : ThemeData}
    {acc : List ThemeData}
    (ha0 : d0.allFields = []) (hl0 : d0.limit_up_count = none)
    (hacc : ∀ d ∈ acc, d.limit_up_count = lucFromFields d) :
    ∀ d ∈ stepAcc (afterName body ts i2 d0 acc), d.limit_up_count = lucFromFields d := by
  intro d hd
  unfold afterName at hd
  split at hd
  · simp only [stepAcc] at hd
    cases hd
  · rename_i di hcs
    have hpres := codeStage_preserves hcs
    have hPr : (scanTrailing body di.2 di.1).1.limit_up_count =
        lucFromFields (scanTrailing body di.2 di.1).1 := by
      simp only [scanTrailing]
      refine innerLoop_P2 ?_ ?_
      · show di.1.allFields = []
        rw [hpres.1, ha0]
      · show di.1.limit_up_count = none
        rw [hpres.2, hl0]
    simp only [finishRecord] at hd
    split_ifs at hd with hT hE
    all_goals simp only [stepAcc] at hd
    all_goals try (exact hacc d hd)
    all_goals rcases List.mem_append.mp hd with hmem | hmem
    all_goals try (exact hacc d hmem)
    all_goals rw [List.mem_singleton.mp hmem]
    all_goals exact hPr

/-- Every record a scan step adds to the accumulator satisfies the
`limit_up_count` characterization. -/
theorem step_P2 {body : List Nat} {i : Nat} {acc : List ThemeData}
    (hacc : ∀ d ∈ acc, d.limit_up_count = lucFromFields d) :
    ∀ d ∈ stepAcc (step body i acc), d.limit_up_count = lucFromFields d := by
  intro d hd
  simp only [step] at hd
  split at hd
  · exact hacc d hd
  · rename_i next_id hf
    split_ifs at hd with h1 h2 h3 h4 h5 h6 h7 h8
    all_goals try (exact hacc d hd)
    all_goals try (simp only [stepAcc] at hd)
    all_goals try (rcases List.mem_append.mp hd with hmem | hmem <;>
      first
        | exact hacc d hmem
        | (rw [List.mem_singleton.mp hmem]; rfl))
    · exact afterName_P2 rfl rfl hacc d hd

theorem scanLoop_P2 (body : List Nat) :
    ∀ (fuel i : Nat) (acc : List ThemeData) (l : List ThemeData),
      (∀ d ∈ acc, d.limit_up_count = lucFromFields d) →
      scanLoop body fuel i acc = some (.ok l) →
      ∀ d ∈ l, d.limit_up_count = lucFromFields d := by
  intro fuel
  induction fuel with
  | zero =>
    intro i acc l hacc h
    simp only [scanLoop] at h
    by_cases h1 : i < body.length
    · rw [if_pos h1] at h
      cases h
    · rw [if_neg h1] at h
      injection h with h
      injection h with h
      subst h
      exact hacc
  | succ fuel ih =>
    intro i acc l hacc h
    simp only [scanLoop] at h
    by_cases h1 : i < body.length
    · rw [if_pos h1] at h
      cases hs : step body i acc with
      | done acc1 =>
        rw [hs] at h
        injection h with h
        injection h with h
        subst h
        have := @step_P2 body i acc hacc
        rw [hs] at this
        exact this
      | fail =>
        rw [hs] at h
        injection h with h
        cases h
      | cont i1 acc1 =>
        rw [hs] at h
        refine ih i1 acc1 l ?_ h
        have := @step_P2 body i acc hacc
        rw [hs] at this
        exact this
    · rw [if_neg h1] at h
      injection h with h
      injection h with h
      subst h
      exact hacc

/-- C2 (amended): a scanned record's `limit_up_count` is the `lucStep` fold
of its encounter-ordered varint `(field_num, value)` pairs — the last
field-7 value `≤ 100` wins (each one overwrites), and a field-8 value
`≤ 100` only fills the slot when it is still unset; with no qualifying field
it stays unset in `parse_theme_list`, but `_extract_theme_list_from_packet`
hands the caller `limit_up_count = 0` as a default. -/
theorem c2_limit_up_amended :
    (∀ (body : List Nat) (l : List ThemeData), parse_theme_list body = .ok l →
      ∀ d ∈ l, d.limit_up_count = lucFromFields d) ∧
    extractThemes c2Pkt = .ok [⟨[0x35], [0x41], none, 0⟩] := by
  constructor
  · intro body l h
    have hrun := parse_theme_list_run body
    rw [h] at hrun
    exact scanLoop_P2 body (body.length + 1) (startIndex body) [] l (by simp) hrun
  · rfl

/-- C2 counterexample: in `c2Body` the record's varint fields are, in
encounter order, `(8, 5)` then `(7, 3)` — the first pair among fields 7/8
with value `≤ 100` is `(8, 5)`, yet the record's `limit_up_count` is `3`
(the later field 7 overwrote it), refuting "the value of the first
qualifying pair". -/
theorem c2_limit_up_counterexample :
    (parse_theme_list c2Body).map
        (fun l => l.map fun d => (d.limit_up_count, varintPairs d.allFields)) =
      .ok [(some 3, [(8, 5), (7, 3)])] := rfl

/-- C2 witness: the amended characterization evaluated on the `c2Body`
record. -/
theorem c2_limit_up_amended_witness :
    (⟨some [0x35], some [0x41], none, some [0x40, 5, 0x38, 3], none, none, some 3, some 5,
        none, none, none, some 3, [.varintF 8 5, .varintF 7 3]⟩ : ThemeData).limit_up_count =
      lucFromFields
        ⟨some [0x35], some [0x41], none, some [0x40, 5, 0x38, 3], none, none, some 3, some 5,
          none, none, none, some 3, [.varintF 8 5, .varintF 7 3]⟩ :=
  c2_limit_up_amended.1 c2Body
    [⟨some [0x35], some [0x41], none, some [0x40, 5, 0x38, 3], none, none, some 3, some 5,
      none, none, none, some 3, [.varintF 8 5, .varintF 7 3]⟩] rfl _
    (List.mem_singleton.mpr rfl)

/-- The validator only ever outputs records passing all its checks. -/
theorem simplifyFold_valid :
    ∀ (ts : List ThemeData) (acc : List SimpleTheme) (seen : List (List Nat)),
      (∀ r ∈ acc, r.id ≠ [] ∧ r.id.all pyIsdigitChar = true ∧ r.id.length ≤ 10 ∧
        r.name ≠ [] ∧ r.name.length ≤ 100 ∧
        ∀ c ∈ r.name, c < 32 → c = 9 ∨ c = 10 ∨ c = 13) →
      ∀ r ∈ simplifyFold ts acc seen,
        r.id ≠ [] ∧ r.id.all pyIsdigitChar = true ∧ r.id.length ≤ 10 ∧
        r.name ≠ [] ∧ r.name.length ≤ 100 ∧
        ∀ c ∈ r.name, c < 32 → c = 9 ∨ c = 10 ∨ c = 13 := by
  intro ts
  induction ts with
  | nil =>
    intro acc seen hacc r hr
    exact hacc r hr
  | cons t rest ih =>
    intro acc seen hacc r hr
    simp only [simplifyFold] at hr
    split at hr
    · rename_i tid0 nm hm1 hm2
      split_ifs at hr with hb1 hb2 hb3 hb4 hb5 hb6
      all_goals try (exact ih acc seen hacc r hr)
      refine ih _ _ ?_ r hr
      intro r1 hr1
      rcases List.mem_append.mp hr1 with hmem | hmem
      · exact hacc r1 hmem
      · rw [List.mem_singleton.mp hmem]
        have hdig : pyIsdigitStr (pyStrip tid0) = true := by simpa using hb2
        have hdig2 := hdig
        unfold pyIsdigitStr at hdig2
        rw [Bool.and_eq_true] at hdig2
        have hid_ne : pyStrip tid0 ≠ [] := by
          intro hnil
          rw [hnil] at hdig2
          simp at hdig2
        have hnm_ne : nm ≠ [] := by
          intro hnil
          rw [hnil] at hb4
          simp at hb4
        refine ⟨hid_ne, hdig2.2, ?_, hnm_ne, ?_, ?_⟩
        · show (pyStrip tid0).length ≤ 10
          omega
        · show nm.length ≤ 100
          omega
        · intro c hc hlt
          by_contra hbad
          push_neg at hbad
          refine hb5 ?_
          unfold hasInvalidChar
          rw [List.any_eq_true]
          refine ⟨c, hc, ?_⟩
          simp only [Bool.and_eq_true, decide_eq_true_eq, Bool.not_eq_true']
          constructor
          · exact hlt
          · simp only [Bool.or_eq_false_iff, beq_eq_false_iff_ne]
            exact ⟨⟨hbad.1, hbad.2.1⟩, hbad.2.2⟩
    · exact ih acc seen hacc r hr

/-- The validator's `seen_ids` set makes output ids unique (first
occurrence wins). -/
theorem simplifyFold_nodup :
    ∀ (ts : List ThemeData) (acc : List SimpleTheme) (seen : List (List Nat)),
      (acc.map SimpleTheme.id).Nodup → (∀ r ∈ acc, r.id ∈ seen) →
      ((simplifyFold ts acc seen).map SimpleTheme.id).Nodup := by
  intro ts
  induction ts with
  | nil =>
    intro acc seen hnd hsub
    exact hnd
  | cons t rest ih =>
    intro acc seen hnd hsub
    simp only [simplifyFold]
    split
    · rename_i tid0 nm hm1 hm2
      split_ifs with hb1 hb2 hb3 hb4 hb5 hb6
      all_goals try (exact ih acc seen hnd hsub)
      refine ih _ _ ?_ ?_
      · rw [List.map_append]
        rw [List.nodup_append]
        refine ⟨hnd, by simp, ?_⟩
        intro x hx
        simp only [List.map_cons, List.map_nil, List.mem_singleton]
        intro hx2
        rcases List.mem_map.mp hx with ⟨r1, hr1, hid⟩
        have : pyStrip tid0 ∈ seen := by
          rw [← hx2, ← hid]
          exact hsub r1 hr1
        exact hb6 this
      · intro r1 hr1
        rcases List.mem_append.mp hr1 with hmem | hmem
        · exact List.mem_cons_of_mem _ (hsub r1 hmem)
        · rw [List.mem_singleton.mp hmem]
          exact List.mem_cons_self _ _
    · exact ih acc seen hnd hsub

/-- Any `.ok` result of `_extract_theme_list_from_packet` is either the
empty early-exit or a run of the validator from empty accumulators. -/
theorem extractThemes_cases {p : List Nat} {l : List SimpleTheme}
    (h : extractThemes p = .ok l) :
    l = [] ∨ ∃ themes, l = simplifyFold themes [] [] := by
  simp only [extractThemes] at h
  by_cases h1 : p.isEmpty = true ∨ p.length < 3
  · rw [if_pos h1] at h
    left
    injection h with h
    exact h.symm
  · rw [if_neg h1] at h
    by_cases h2 : ¬ (p.getD 0 0 = 0x40 ∨ p.getD 0 0 = 0x60)
    · rw [if_pos h2] at h
      left
      injection h with h
      exact h.symm
    · rw [if_neg h2] at h
      by_cases h3 : p.length < 3 + (p.getD 1 0 * 256 + p.getD 2 0)
      · rw [if_pos h3] at h
        left
        injection h with h
        exact h.symm
      · rw [if_neg h3] at h
        split at h
        · cases h
        · rename_i themes hcp
          right
          injection h with h
          exact ⟨themes, h.symm⟩

/-- C3 (amended): every record handed to the caller has a non-empty id of at
most 10 characters all satisfying Python's `str.isdigit` (a strict superset
of the ASCII digits), and a non-empty name of at most 100 characters with no
code point below 32 other than tab, newline, carriage return — DEL and the
C1 controls are not excluded. -/
theorem c3_record_validity_amended :
    ∀ (p : List Nat) (l : List SimpleTheme), extractThemes p = .ok l →
      ∀ r ∈ l, r.id ≠ [] ∧ r.id.all pyIsdigitChar = true ∧ r.id.length ≤ 10 ∧
        r.name ≠ [] ∧ r.name.length ≤ 100 ∧
        ∀ c ∈ r.name, c < 32 → c = 9 ∨ c = 10 ∨ c = 13 := by
  intro p l h r hr
  rcases extractThemes_cases h with rfl | ⟨themes, rfl⟩
  · cases hr
  · exact simplifyFold_valid themes [] [] (by simp) r hr

/-- C3 counterexample: the caller-facing catalog can contain a name holding
DEL (`U+007F`, an ASCII control character that is not tab/newline/CR), and
an id whose character `U+00B2` is not an ASCII digit — refuting both the
"no control characters other than tab, newline, carriage return" and the
"composed entirely of ASCII digits" clauses as stated. -/
theorem c3_record_validity_counterexample :
    extractThemes c3DelPkt = .ok [⟨[0x35], [0x41, 0x7F], none, 0⟩] ∧
    isAsciiControl 0x7F = true ∧
    ¬((0x7F : Nat) = 9 ∨ (0x7F : Nat) = 10 ∨ (0x7F : Nat) = 13) ∧
    extractThemes c3SupPkt = .ok [⟨[0xB2], [0x41], none, 0⟩] ∧
    isAsciiDigit 0xB2 = false :=
  ⟨rfl, rfl, by decide, rfl, rfl⟩

/-- C3 witness: the amended invariant evaluated on a concrete
one-record packet. -/
theorem c3_record_validity_witness :
    ([0x35] : List Nat) ≠ [] ∧ ([0x35] : List Nat).all pyIsdigitChar = true ∧
      ([0x35] : List Nat).length ≤ 10 ∧ ([0x41] : List Nat) ≠ [] ∧
      ([0x41] : List Nat).length ≤ 100 ∧
      ∀ c ∈ ([0x41] : List Nat), c < 32 → c = 9 ∨ c = 10 ∨ c = 13 :=
  c3_record_validity_amended c2Pkt [⟨[0x35], [0x41], none, 0⟩] rfl _
    (List.mem_singleton.mpr rfl)

/-- C9: within one decoded catalog the ids are pairwise distinct, and when
two valid candidates share an id the first-encountered record is kept whole
(the later duplicate is discarded, not merged): the `c9Pkt` packet holds
`id="500", name="A"` followed by `id="500", name="B"`, and the catalog is
exactly the first record. -/
theorem c9_dedup_first_wins :
    (∀ (p : List Nat) (l : List SimpleTheme), extractThemes p = .ok l →
      (l.map SimpleTheme.id).Nodup) ∧
    extractThemes c9Pkt = .ok [⟨[0x35, 0x30, 0x30], [0x41], none, 0⟩] := by
  constructor
  · intro p l h
    rcases extractThemes_cases h with rfl | ⟨themes, rfl⟩
    · simp
    · exact simplifyFold_nodup themes [] [] (by simp) (by simp)
  · rfl

/-- C9 witness: uniqueness applied to the duplicate-id packet. -/
theorem c9_dedup_first_wins_witness :
    (([⟨[0x35, 0x30, 0x30], [0x41], none, 0⟩] : List SimpleTheme).map SimpleTheme.id).Nodup :=
  c9_dedup_first_wins.1 c9Pkt [⟨[0x35, 0x30, 0x30], [0x41], none, 0⟩] rfl

/-- C4 (amended): a varint overflow in the trailing-field scan only stops
that scan — the candidate record, already holding its id and name, is
returned as accumulated and is kept in the results; scanning resumes at the
next `0x0A` anchor found after the id/name/code fields, and the rest of the
window is still scanned (in `c4Body` the record after the overflowing field
is also extracted). -/
theorem c4_varint_overflow_amended :
    (∀ (body : List Nat) (te fuel pos : Nat) (d : ThemeData),
      pos < te → pos < body.length → (body.getD pos 0) &&& 0x07 = 0 →
      parse_varint body (pos + 1) = none →
      innerLoop body te (fuel + 1) pos d = d) ∧
    (parse_theme_list c4Body).map (fun l => l.map fun d => (d.id, d.name)) =
      .ok [(some [0x35], some [0x41]), (some [0x36], some [0x42])] := by
  constructor
  · intro body te fuel pos d h1 h2 h3 h4
    simp only [innerLoop]
    rw [if_pos h1, if_neg (by omega : ¬ pos ≥ body.length), if_pos h3, h4]
  · rfl

/-- C4 counterexample: the candidate whose trailing field 5 is a
ten-continuation-byte varint (an overflow) is not discarded — it appears in
the results, and scanning resumed at the next anchor rather than one byte
past the failure point. -/
theorem c4_varint_overflow_counterexample :
    parse_varint c4Varint 1 = none ∧
    (parse_theme_list c4Body).map (fun l => l.map fun d => d.id) =
      .ok [some [0x35], some [0x36]] :=
  ⟨rfl, rfl⟩

/-- C4 witness: the overflow-stops-the-scan lemma evaluated on the
ten-continuation-byte field. -/
theorem c4_varint_overflow_amended_witness :
    innerLoop c4Varint 11 11 0 emptyTheme = emptyTheme :=
  c4_varint_overflow_amended.1 c4Varint 11 10 0 emptyTheme (by decide) (by decide)
    (by decide) (by decide)

/-- C6 (amended): an anchor whose id fails validation — its payload
overruns the window, its raw length exceeds 20, its decoded payload strips
to something empty or not all Python digits, or the strip exceeds 10
characters — is rejected with the scan advancing to exactly one byte past
the anchor byte (never the claimed payload length, never a restart); the
spec's `"12a"` and `"12345678901"` examples are indeed rejected this way;
but a payload that merely strips to a digit string (`" 12"`) is accepted,
so rejection is not exactly "not composed entirely of ASCII digits". -/
theorem c6_resync_amended :
    (∀ (body : List Nat) (i : Nat) (acc : List ThemeData) (p : Nat),
      i < body.length → findByte body 0x0A i = some p → p + 2 < body.length →
      anchorAccept body p = false →
      step body i acc = .cont (p + 1) acc) ∧
    parse_theme_list c6NonDigit = .ok [] ∧
    parse_theme_list c6Eleven = .ok [] ∧
    step c6NonDigit 0 [] = .cont 1 [] ∧
    step c6Eleven 0 [] = .cont 1 [] := by
  refine ⟨?_, rfl, rfl, rfl, rfl⟩
  intro body i acc p hi hf hp hrej
  simp only [step]
  rw [hf]
  dsimp only
  rw [if_neg (by omega : ¬ p + 2 ≥ body.length)]
  by_cases hA : p + 2 + anchorIdLen body p > body.length
  · rw [if_pos hA]
  · rw [if_neg hA]
    by_cases hB : anchorIdLen body p > 20
    · rw [if_pos hB]
    · rw [if_neg hB]
      by_cases hC : (anchorIdRaw body p).isEmpty = true ∨
          ¬ pyIsdigitStr (pyStrip (anchorIdRaw body p)) = true
      · rw [if_pos hC]
      · rw [if_neg hC]
        by_cases hD : (pyStrip (anchorIdRaw body p)).length > 10
        · rw [if_pos hD]
        · exfalso
          push_neg at hC
          have haccept : anchorAccept body p = true := by
            simp only [anchorAccept, Bool.and_eq_true, decide_eq_true_eq]
            refine ⟨⟨⟨by omega, by omega⟩, ?_, hC.2⟩, by omega⟩
            simp only [Bool.not_eq_true']
            exact Bool.eq_false_iff.mpr hC.1
          rw [haccept] at hrej
          cases hrej

/-- C6 counterexample: the anchor payload `" 12"` is not composed entirely
of ASCII digits, yet the anchor is accepted and yields a record with
`id="12"` — the scan did not advance one byte past the anchor. -/
theorem c6_resync_counterexample :
    ([0x20, 0x31, 0x32] : List Nat).all isAsciiDigit = false ∧
    (parse_theme_list c6Body).map (fun l => l.map fun d => (d.id, d.name)) =
      .ok [(some [0x31, 0x32], some [0x41])] :=
  ⟨rfl, rfl⟩

/-- C6 witness: the one-byte-advance theorem applied to the `"12a"`
anchor. -/
theorem c6_resync_amended_witness :
    step c6NonDigit 0 [] = .cont 1 [] :=
  c6_resync_amended.1 c6NonDigit 0 [] 0 (by decide) (by decide) (by decide) (by decide)

/-- The 4096-byte windows concatenate back to the body: they are the
non-overlapping consecutive slices, nothing skipped, nothing repeated. -/
theorem chunksOf_flatten_aux :
    ∀ (n : Nat) (body : List Nat), body.length ≤ n → (chunksOf body).flatten = body := by
  intro n
  induction n with
  | zero =>
    intro body h
    have hb : body = [] := List.eq_nil_of_length_eq_zero (by omega)
    subst hb
    rfl
  | succ n ih =>
    intro body h
    by_cases hb : body.length = 0
    · have hb2 : body = [] := List.eq_nil_of_length_eq_zero hb
      subst hb2
      rfl
    · have hcount :
          (body.length + 4095) / 4096 = (((body.drop 4096).length + 4095) / 4096) + 1 := by
        rw [List.length_drop]
        omega
      have hchunks : chunksOf body = body.take 4096 :: chunksOf (body.drop 4096) := by
        unfold chunksOf
        rw [hcount, List.range_succ_eq_map, List.map_cons, List.map_map]
        congr 1
        refine List.map_congr_left ?_
        intro j hj
        simp only [Function.comp]
        rw [List.drop_drop]
        congr 2
        omega
      rw [hchunks, List.flatten_cons,
        ih (body.drop 4096) (by rw [List.length_drop]; omega), List.take_append_drop]

/-- A pattern whose first byte is absent from the haystack never occurs. -/
theorem findSeqFrom_none (b : Nat) (pat : List Nat) :
    ∀ (l : List Nat) (i : Nat), b ∉ l → findSeqFrom (b :: pat) l i = none := by
  intro l
  induction l with
  | nil =>
    intro i h
    simp [findSeqFrom]
  | cons a t ih =>
    intro i h
    simp only [findSeqFrom]
    rw [if_neg ?_]
    · exact ih (i + 1) fun hmem => h (List.mem_cons_of_mem a hmem)
    · intro heq
      rw [show (b :: pat).length = pat.length + 1 from rfl, List.take_succ_cons] at heq
      injection heq with h1 h2
      exact h (h1 ▸ List.mem_cons_self a t)

/-- Searching past a block of non-matching bytes only shifts the start
index. -/
theorem findIdx?_replicate_shift {p : Nat → Bool} {c : Nat} (hc : p c = false)
    (l : List Nat) :
    ∀ (n i : Nat), List.findIdx? p (List.replicate n c ++ l) i = List.findIdx? p l (i + n) := by
  intro n
  induction n with
  | zero =>
    intro i
    simp
  | succ n ih =>
    intro i
    rw [List.replicate_succ, List.cons_append, List.findIdx?_cons, if_neg (by simp [hc]),
      ih (i + 1)]
    congr 1
    omega

theorem c7Win1_length : c7Win1.length = 4096 := by
  unfold c7Win1
  rw [List.length_append, List.length_replicate]
  rfl

theorem c7Body_length : c7Body.length = 4103 := by
  unfold c7Body
  rw [List.length_append, List.length_replicate]
  rfl

/-- The anchor of the first window sits at its very last byte. -/
theorem c7Win1_anchor : findByte c7Win1 0x0A 0 = some 4095 := by
  unfold findByte c7Win1
  rw [List.drop_zero, @findIdx?_replicate_shift (· == 0x0A) 0 rfl [0x0A] 4095 0]
  rfl

theorem c7Win1_startIndex : startIndex c7Win1 = 0 := by
  have hnot : (0x0B : Nat) ∉ c7Win1 := by
    unfold c7Win1
    intro hmem
    rcases List.mem_append.mp hmem with h0 | h1
    · exact absurd (List.eq_of_mem_replicate h0) (by norm_num)
    · exact absurd (List.mem_singleton.mp h1) (by norm_num)
  unfold startIndex findSeq
  rw [findSeqFrom_none 0x0B [0xC1, 0x00, 0x00, 0x00] c7Win1 0 hnot]

/-- One fueled iteration that `break`s. -/
theorem scanLoop_step_done {body : List Nat} {fuel i : Nat} {acc acc1 : List ThemeData}
    (hi : i < body.length) (hs : step body i acc = .done acc1) :
    scanLoop body (fuel + 1) i acc = some (.ok acc1) := by
  simp only [scanLoop]
  rw [if_pos hi, hs]

/-- The first window's anchor has no room for a length byte and payload, so
its scan stops with no records. -/
theorem c7Win1_step : step c7Win1 0 [] = .done [] := by
  have hc : (4095 : Nat) + 2 ≥ c7Win1.length := by
    rw [c7Win1_length]
    omega
  simp only [step]
  rw [c7Win1_anchor]
  dsimp only
  rw [if_pos hc]

theorem c7Win1_parse : parse_theme_list c7Win1 = .ok [] := by
  have hrun := parse_theme_list_run c7Win1
  rw [c7Win1_startIndex, c7Win1_length] at hrun
  rw [@scanLoop_step_done c7Win1 4096 0 [] [] (by rw [c7Win1_length]; omega) c7Win1_step] at hrun
  exact (Option.some.inj hrun).symm

theorem c7Win2_parse : parse_theme_list c7Win2 = .ok [] := rfl

/-- The chunker splits `c7Body` into exactly its two windows. -/
theorem c7Body_chunks : chunksOf c7Body = [c7Win1, c7Win2] := by
  have hrep : (List.replicate 4095 (0 : Nat)).length ≤ 4096 := by
    rw [List.length_replicate]
    omega
  have h0 : (c7Body.drop (4096 * 0)).take 4096 = c7Win1 := by
    rw [show (4096 : Nat) * 0 = 0 from rfl, List.drop_zero]
    unfold c7Body c7Win1
    rw [List.take_append_eq_append_take, List.take_of_length_le hrep, List.length_replicate,
      show (4096 - 4095 : Nat) = 1 from rfl,
      show List.take 1 [0x0A, 3, 0x31, 0x32, 0x33, 0x12, 1, 0x41] = [0x0A] from rfl]
  have h1 : (c7Body.drop (4096 * 1)).take 4096 = c7Win2 := by
    rw [show (4096 : Nat) * 1 = 4096 from rfl]
    unfold c7Body c7Win2
    rw [List.drop_append_eq_append_drop, List.drop_eq_nil_of_le hrep, List.length_replicate,
      List.nil_append, show (4096 - 4095 : Nat) = 1 from rfl,
      show List.drop 1 [0x0A, 3, 0x31, 0x32, 0x33, 0x12, 1, 0x41] =
        [3, 0x31, 0x32, 0x33, 0x12, 1, 0x41] from rfl]
    rfl
  unfold chunksOf
  rw [c7Body_length, show ((4103 : Nat) + 4095) / 4096 = 2 from rfl,
    show List.range 2 = [0, 1] from rfl]
  simp only [List.map_cons, List.map_nil]
  rw [h0, h1]

/-- The chunked extraction of `c7Pkt` yields no records at all. -/
theorem c7Pkt_extract : extractThemes c7Pkt = .ok [] := by
  have hlp : c7Pkt.length = 4106 := by
    unfold c7Pkt
    rw [List.length_append, c7Body_length,
      show List.length [0x40, 0x10, 0x07] = 3 from rfl]
  have hg0 : c7Pkt.getD 0 0 = 0x40 := rfl
  have hg1 : c7Pkt.getD 1 0 = 0x10 := rfl
  have hg2 : c7Pkt.getD 2 0 = 0x07 := rfl
  have hie : c7Pkt.isEmpty = false := rfl
  have hdrop3 : c7Pkt.drop 3 = c7Body := rfl
  simp only [extractThemes]
  rw [if_neg (by rw [hlp, hie]; norm_num)]
  rw [if_neg (by rw [hg0]; decide)]
  rw [if_neg (by rw [hlp, hg1, hg2]; norm_num)]
  rw [hdrop3, c7Body_chunks]
  simp only [collectParses, c7Win1_parse, c7Win2_parse, List.nil_append, List.append_nil]
  rfl

/-- C7: the frame body is processed as the non-overlapping consecutive
4096-byte windows (they concatenate back to the body and none exceeds 4096
bytes), each scanned independently — and a record whose `0x0A` anchor is the
last byte of one window with its payload in the next is never reconstructed:
on `c7Pkt` the extraction result is empty, even though the very same record
bytes parse to the `id="123"` record when they sit inside a single
window. -/
theorem c7_window_boundary :
    (∀ body : List Nat, (chunksOf body).flatten = body) ∧
    (∀ (body : List Nat) (i : Nat), ((chunksOf body).getD i []).length ≤ 4096) ∧
    extractThemes c7Pkt = .ok [] ∧
    (parse_theme_list [0x0A, 3, 0x31, 0x32, 0x33, 0x12, 1, 0x41]).map
        (fun l => l.map fun d => d.id) =
      .ok [some [0x31, 0x32, 0x33]] := by
  refine ⟨?_, ?_, c7Pkt_extract, rfl⟩
  · intro body
    exact chunksOf_flatten_aux body.length body (Nat.le_refl _)
  · intro body i
    rw [List.getD_eq_getD_get?]
    cases hg : (chunksOf body).get? i with
    | none => simp
    | some c =>
      simp only [Option.getD_some]
      have hc : c ∈ chunksOf body := List.get?_mem hg
      rcases List.mem_map.mp hc with ⟨j, hj, rfl⟩
      simp [List.length_take]

/- END OF THEOREMS -/

end ThemeLib
